import Mathlib

/-!
# Verification of the ffmpeg-service caption pipeline

A shallow embedding of the pure core of `src/utils/ffmpeg_utils.py` and
`src/workers/processors.py`: segment chunking and time slicing, the SRT and
ASS serializers, timestamp formatting, the burn-in path selection and
sidecar-path derivation, the probe fallbacks and the single-slot model
cache.  Machine floats of the source are modelled by exact rationals;
strings are modelled by `String` / `List Char`.
-/

namespace FF

/-- Python `str.split()` with no separator, on the character list of a
string: splits on runs of whitespace, never yielding empty words.
(Whitespace is approximated by `Char.isWhitespace`.) -/
def splitWs : List Char → List (List Char)
  | [] => []
  | c :: cs =>
    if c.isWhitespace then splitWs cs
    else (c :: cs.takeWhile (fun d => !d.isWhitespace)) ::
      splitWs (cs.dropWhile (fun d => !d.isWhitespace))
termination_by l => l.length
decreasing_by
  · simp only [List.length_cons]; omega
  · simp only [List.length_cons]
    exact Nat.lt_succ_of_le (List.dropWhile_sublist _).length_le

/-- Python `" ".join(words)` on words given as character lists. -/
def joinWords : List (List Char) → List Char
  | [] => []
  | [w] => w
  | w :: ws => w ++ ' ' :: joinWords ws

/-- Python `str.strip()`: drop leading and trailing whitespace. -/
def trimWs (l : List Char) : List Char :=
  ((l.dropWhile Char.isWhitespace).reverse.dropWhile Char.isWhitespace).reverse

/-- Python `str.strip()` at the `String` level. -/
def pyStrip (s : String) : String := ⟨trimWs s.data⟩

/-- Python `str.split()` at the `String` level. -/
def pySplit (s : String) : List String := (splitWs s.data).map String.mk

/-- The word groups of `for i in range(0, len(words), m): words[i:i+m]`
(source lines 118-120 / 208-210), for step `m ≥ 1`. -/
def groupWords {α : Type} (m : Nat) : List α → List (List α)
  | [] => []
  | w :: ws => (w :: ws.take (m - 1)) :: groupWords m (ws.drop (m - 1))
termination_by l => l.length
decreasing_by
  simp only [List.length_cons, List.length_drop]
  omega

/-- The chunk texts produced for one (already stripped, for `write_ass`
already upper-cased) segment text: `[text]` when the word count is within
the limit, else the word groups rejoined with single blanks
(source lines 112-120 / 201-210). -/
def chunksOf (text : String) (m : Nat) : List String :=
  let words := splitWs text.data
  if words.length ≤ m then [text]
  else (groupWords m words).map (fun g => ⟨joinWords g⟩)

/-- Number of whitespace-separated words of a string. -/
def wordCount (s : String) : Nat := (splitWs s.data).length

/-- A Whisper segment as both serializers consume it: a start time, an end
time (named `stop`, `end` being a Lean keyword) and a text. -/
structure Seg where
  start : ℚ
  stop : ℚ
  text : String

/-- The chunk list of a segment in `write_srt` (text stripped first). -/
def segChunks (seg : Seg) (m : Nat) : List String :=
  chunksOf (pyStrip seg.text) m

/-- `chunk_duration = duration / len(chunks)` (source line 121). -/
def chunk_duration (seg : Seg) (m : Nat) : ℚ :=
  (seg.stop - seg.start) / ((segChunks seg m).length : ℚ)

/-- `chunk_start = start + (idx * chunk_duration)` (source line 123). -/
def chunk_start (seg : Seg) (m : Nat) (idx : Nat) : ℚ :=
  seg.start + idx * chunk_duration seg m

/-- `chunk_end = start + ((idx + 1) * chunk_duration)` (source line 124). -/
def chunk_stop (seg : Seg) (m : Nat) (idx : Nat) : ℚ :=
  seg.start + (idx + 1 : ℚ) * chunk_duration seg m

/-! ## Timestamp formatting (`format_time`, `format_time_ass`) -/

/-- Zero-padded decimal rendering to width `w`, most significant digit
first: Python `f"{n:02d}"` / `f"{n:03d}"` for `n < 10^w` (every field the
formatters pad is below its `10^w` bound on the claims' input ranges). -/
def padDigits : Nat → Nat → List Char
  | 0, _ => []
  | w + 1, n => Nat.digitChar (n / 10 ^ w) :: padDigits w (n % 10 ^ w)

/-- Unpadded decimal rendering, Python `str(n)` / `f"{n}"`. -/
def natChars (n : Nat) : List Char := Nat.toDigits 10 n

/-- Python `a % b` on floats for `b > 0` (result has the divisor's sign):
`a - b * ⌊a / b⌋`. -/
def qmod (a b : ℚ) : ℚ := a - b * ⌊a / b⌋

/-- `format_time` (source lines 63-77): seconds to `"HH:MM:SS,mmm"`.
`divmod` on floats takes floored quotients with nonnegative remainders,
and `int(...)` on the nonnegative values involved is the floor; `.toNat`
is exact on the claims' nonnegative domain. -/
def format_time (seconds : ℚ) : String :=
  let hours : ℤ := ⌊seconds / 3600⌋
  let remainder : ℚ := seconds - 3600 * hours
  let minutes : ℤ := ⌊remainder / 60⌋
  let secs : ℚ := remainder - 60 * minutes
  let milliseconds : ℤ := ⌊(secs - ⌊secs⌋) * 1000⌋
  ⟨padDigits 2 hours.toNat ++ ':' :: padDigits 2 minutes.toNat ++
    ':' :: padDigits 2 (⌊secs⌋).toNat ++ ',' :: padDigits 3 milliseconds.toNat⟩

/-- `format_time_ass` (source lines 80-94): seconds to `"H:MM:SS.CC"`,
hour field unpadded. -/
def format_time_ass (seconds : ℚ) : String :=
  let h : ℤ := ⌊seconds / 3600⌋
  let m : ℤ := ⌊qmod seconds 3600 / 60⌋
  let s : ℤ := ⌊qmod seconds 60⌋
  let cs : ℤ := ⌊(seconds - ⌊seconds⌋) * 100⌋
  ⟨natChars h.toNat ++ ':' :: padDigits 2 m.toNat ++
    ':' :: padDigits 2 s.toNat ++ '.' :: padDigits 2 cs.toNat⟩

/-! ## The SRT serializer (`write_srt`, source lines 97-129) -/

/-- One numbered SRT block
`f"{counter}\n{format_time(chunk_start)} --> {format_time(chunk_end)}\n{chunk}\n"`. -/
def srtBlock (counter : Nat) (cstart cstop : ℚ) (chunk : String) : String :=
  toString counter ++ "\n" ++ format_time cstart ++ " --> " ++
    format_time cstop ++ "\n" ++ chunk ++ "\n"

/-- The blocks of one segment, numbered from `counter`. -/
def segBlocks (seg : Seg) (m : Nat) (counter : Nat) : List String :=
  (segChunks seg m).enum.map fun p =>
    srtBlock (counter + p.1) (chunk_start seg m p.1) (chunk_stop seg m p.1) p.2

/-- The block lists of all segments, threading the 1-based global counter. -/
def srtBlocks (m : Nat) : List Seg → Nat → List String
  | [], _ => []
  | seg :: rest, counter =>
    segBlocks seg m counter ++ srtBlocks m rest (counter + (segChunks seg m).length)

/-- `write_srt`: all blocks joined by `"\n".join(srt_output)`. -/
def write_srt (subtitles : List Seg) (max_words_per_line : Nat := 3) : String :=
  String.intercalate "\n" (srtBlocks max_words_per_line subtitles 1)

/-! ## Caption style settings and the ASS serializer (`write_ass`) -/

/-- The value of the `highlight-position` key: Python stores `"first"`,
`"last"` (any string) or an integer word index. -/
inductive HPos where
  | str (s : String)
  | int (k : ℤ)
deriving DecidableEq

/-- The settings dictionary: every recognized key, each optional (absent
key = `None` / missing, `settings.get` supplies the defaults at use
sites).  Numeric values are rationals (the source passes ints; floats
appear only in defaults of unclaimed fields). -/
structure Settings where
  fontSize : Option ℚ := none
  primaryColor : Option String := none
  highlightColor : Option String := none
  outlineColor : Option String := none
  shadowColor : Option String := none
  outlineWidth : Option ℚ := none
  shadowOffset : Option ℚ := none
  maxWordsPerLine : Option Nat := none
  y : Option ℚ := none
  fontFamily : Option String := none
  bold : Option Bool := none
  highlightPosition : Option HPos := none
  useAss : Option Bool := none
  wordColor : Option String := none

/-- Decimal rendering of a numeric setting, Python `str(x)` inside an
f-string.  Exact for integral values (every value the source passes);
for non-integral rationals it is a stand-in for Python's float repr,
which no claim inspects. -/
def numStr (q : ℚ) : String :=
  if q.den = 1 then toString q.num else toString q

/-- Python `int(x)`: truncation toward zero. -/
def pyInt (q : ℚ) : ℤ := q.num / q.den

/-- `hex_to_ass_color` of `write_ass` (source lines 159-163): strip
leading `#`s, reorder `RRGGBB` to `&HAABBGGRR`.  Python slices
`[0:2]`, `[2:4]`, `[4:6]` are `take`/`drop` (short input yields short,
not an error). -/
def hex_to_ass_color (hexColor : String) (alpha : String := "00") : String :=
  let h := hexColor.data.dropWhile (· == '#')
  let r := h.take 2
  let g := (h.drop 2).take 2
  let b := (h.drop 4).take 2
  "&H" ++ alpha ++ ⟨b⟩ ++ ⟨g⟩ ++ ⟨r⟩

/-- The `[Script Info]`/`[V4+ Styles]`/`[Events]` document header of
`write_ass` (source lines 178-192), with the settings interpolated. -/
def assHeader (st : Settings) : String :=
  "[Script Info]\nTitle: Subtitles\nScriptType: v4.00+\nWrapStyle: 0\n" ++
  "PlayResX: 1080\nPlayResY: 1920\nScaledBorderAndShadow: yes\n\n" ++
  "[V4+ Styles]\n" ++
  "Format: Name, Fontname, Fontsize, PrimaryColour, SecondaryColour, " ++
  "OutlineColour, BackColour, Bold, Italic, Underline, StrikeOut, " ++
  "ScaleX, ScaleY, Spacing, Angle, BorderStyle, Outline, Shadow, " ++
  "Alignment, MarginL, MarginR, MarginV, Encoding\n" ++
  "Style: Default," ++ st.fontFamily.getD "Arial Black" ++ "," ++
  numStr (st.fontSize.getD 32) ++ "," ++
  hex_to_ass_color (st.primaryColor.getD "#FFFFFF") ++ ",&H000000FF," ++
  hex_to_ass_color (st.outlineColor.getD "#000000") ++ ",&H00000000," ++
  (if st.bold.getD false then "-1" else "0") ++ ",0,0,0,100,100,0,0,3," ++
  numStr (st.outlineWidth.getD 3) ++ "," ++ numStr (st.shadowOffset.getD 2) ++
  ",2,40,40," ++ numStr (st.y.getD 960) ++ ",1\n\n" ++
  "[Events]\n" ++
  "Format: Layer, Start, End, Style, Name, MarginL, MarginR, MarginV, " ++
  "Effect, Text\n"

/-- The highlight decision of `write_ass` (source lines 229-236): the
`if`/`elif` chain on `highlight-position` for the word at `wordIdx` in a
chunk of `n` words. -/
def shouldHighlight (pos : HPos) (wordIdx : Nat) (n : Nat) : Bool :=
  if pos = .str "first" ∧ wordIdx = 0 then true
  else if pos = .str "last" ∧ wordIdx = n - 1 then true
  else match pos with
    | .int k => (wordIdx : ℤ) = k
    | .str _ => false

/-- `f"{{\\c{highlight_color}}}{word}{{\\c{primary_color}}}"`
(source line 239): the word wrapped in a color escape and a reset. -/
def wrapHighlight (hc pc : String) (w : String) : String :=
  "\x7b\\c" ++ hc ++ "\x7d" ++ w ++ "\x7b\\c" ++ pc ++ "\x7d"

/-- The `formatted_words` list of one chunk (source lines 226-241). -/
def formatWords (ws : List String) (pos : HPos) (hc pc : String) : List String :=
  ws.enum.map fun p =>
    if shouldHighlight pos p.1 ws.length then wrapHighlight hc pc p.2 else p.2

/-- The set of word indices the styled renderer highlights in a chunk of
`n` words, as a filtered index list (a statement-side view of
`shouldHighlight`). -/
def highlightedIndices (pos : HPos) (n : Nat) : List Nat :=
  (List.range n).filter (fun i => shouldHighlight pos i n)

/-- One `Dialogue:` event line of `write_ass` (source lines 218-247). -/
def assDialogue (st : Settings) (cstart cstop : ℚ) (chunk : String) : String :=
  let wordsInChunk := pySplit chunk
  let highlightPos := st.highlightPosition.getD (.str "last")
  let highlightColor := hex_to_ass_color (st.highlightColor.getD "#FFFF00")
  let primaryColor := hex_to_ass_color (st.primaryColor.getD "#FFFFFF")
  let formattedText :=
    if wordsInChunk.length > 0 then
      String.intercalate " "
        (formatWords wordsInChunk highlightPos highlightColor primaryColor)
    else chunk
  "Dialogue: 0," ++ format_time_ass cstart ++ "," ++ format_time_ass cstop ++
    ",Default,,0,0,0,," ++ formattedText ++ "\n"

/-- The chunk list of a segment in `write_ass`: text stripped, then
upper-cased (source line 198), then chunked as in `write_srt`. -/
def segChunksAss (seg : Seg) (m : Nat) : List String :=
  chunksOf ((pyStrip seg.text).toUpper) m

/-- The event lines of one segment in `write_ass` (lines 213-247); the
time slicing repeats the `write_srt` arithmetic on the ASS chunk list. -/
def assEvents (st : Settings) (m : Nat) (seg : Seg) : List String :=
  let chunks := segChunksAss seg m
  let d := (seg.stop - seg.start) / (chunks.length : ℚ)
  chunks.enum.map fun p =>
    assDialogue st (seg.start + p.1 * d) (seg.start + (p.1 + 1 : ℚ) * d) p.2

/-- `write_ass` (source lines 132-249): the header plus the accumulated
event lines. -/
def write_ass (subtitles : List Seg) (max_words_per_line : Nat)
    (st : Settings) : String :=
  assHeader st ++ String.join ((subtitles.map (assEvents st max_words_per_line)).flatten)

/-! ## The burn-in builder (`burn_subtitles`, source lines 252-412) -/

/-- The format selection of line 287:
`use_ass = settings.get("use-ass", False) or
settings.get("highlight-position") is not None`. -/
def useStyledPath (st : Settings) : Bool :=
  st.useAss.getD false || st.highlightPosition.isSome

/-- Python `str.replace(".mp4", rep)` specialised to the fixed pattern
`".mp4"`: replace every non-overlapping occurrence, left to right
(source lines 291 and 344). -/
def replaceMp4 (rep : List Char) : List Char → List Char
  | '.' :: 'm' :: 'p' :: '4' :: rest => rep ++ replaceMp4 rep rest
  | c :: cs => c :: replaceMp4 rep cs
  | [] => []

/-- Does `".mp4"` occur in the character list? -/
def containsMp4 : List Char → Bool
  | '.' :: 'm' :: 'p' :: '4' :: _ => true
  | _ :: cs => containsMp4 cs
  | [] => false

/-- Number of (non-overlapping, leftmost-first) occurrences of `".mp4"`. -/
def countMp4 : List Char → Nat
  | '.' :: 'm' :: 'p' :: '4' :: rest => countMp4 rest + 1
  | _ :: cs => countMp4 cs
  | [] => 0

/-- `ass_path = video_path.replace(".mp4", "_temp.ass")` (line 291). -/
def assSidecarPath (videoPath : String) : String :=
  ⟨replaceMp4 "_temp.ass".data videoPath.data⟩

/-- `srt_path = video_path.replace(".mp4", "_temp.srt")` (line 344). -/
def srtSidecarPath (videoPath : String) : String :=
  ⟨replaceMp4 "_temp.srt".data videoPath.data⟩

/-- `path.replace("\\", "/").replace(":", "\\:")` (lines 304 / 349):
the filter-graph path escaping. -/
def escapePath (p : String) : String :=
  ⟨(p.data.map fun c => if c = '\\' then '/' else c).flatMap
    fun c => if c = ':' then ['\\', ':'] else [c]⟩

/-- `hex_to_ass_color` of the SRT burn path (lines 352-355): alpha fixed
to `00`. -/
def burnHexColor (hexColor : String) : String :=
  let h := hexColor.data.dropWhile (· == '#')
  let r := h.take 2
  let g := (h.drop 2).take 2
  let b := (h.drop 4).take 2
  "&H00" ++ ⟨b⟩ ++ ⟨g⟩ ++ ⟨r⟩

/-- The `subtitle_filter` string of the SRT (legacy) burn path
(source lines 362-375), given the already-escaped sidecar path. -/
def srtSubtitleFilter (srtPathEscaped : String) (st : Settings) : String :=
  "subtitles=" ++ srtPathEscaped ++ ":force_style='" ++
  "FontName=" ++ st.fontFamily.getD "Montserrat-Bold" ++ "," ++
  "FontSize=" ++ numStr (st.fontSize.getD 10) ++ "," ++
  "Bold=1," ++
  "PrimaryColour=" ++ burnHexColor (st.primaryColor.getD (st.wordColor.getD "#FFFFFF")) ++ "," ++
  "OutlineColour=" ++ burnHexColor (st.outlineColor.getD "#000000") ++ "," ++
  "BackColour=" ++ burnHexColor (st.shadowColor.getD "#000000") ++ "," ++
  "BorderStyle=1," ++
  "Outline=" ++ numStr (st.outlineWidth.getD (1/2)) ++ "," ++
  "Shadow=" ++ numStr (st.shadowOffset.getD (3/10)) ++ "," ++
  "Alignment=2," ++
  "MarginV=" ++ toString (pyInt (st.y.getD 50)) ++ "'"

/-! ## Probes (`video_has_audio`, `get_video_duration`, lines 8-60) -/

/-- What one `subprocess.run` of ffprobe can come back with: the call
itself raising (missing binary, OS error), or a finished process with an
exit code and captured stdout. -/
inductive ProbeOutcome where
  | raised
  | exited (exitCode : Nat) (stdout : String)

/-- `video_has_audio`: no `check=True`, so a nonzero exit is not an
error; any raised exception is caught and yields `False`
(source lines 18-33). -/
def video_has_audio : ProbeOutcome → Bool
  | .raised => false
  | .exited _ out => pyStrip out == "audio"

/-- `get_video_duration`: `check=True` turns a nonzero exit into an
exception; that, a raised call and an unparsable stdout
(`float(...)` raising) are all caught and yield the fallback `5.0`
(source lines 46-60).  `parseFloat` stands for Python's `float(...)`
parser. -/
def get_video_duration (parseFloat : String → Option ℚ) :
    ProbeOutcome → ℚ
  | .raised => 5
  | .exited code out =>
    if code ≠ 0 then 5
    else match parseFloat (pyStrip out) with
      | some q => q
      | none => 5

/-! ## The Whisper model cache (`_load_whisper_model`,
`src/workers/processors.py` lines 24-43) -/

/-- The two module-level globals: `_whisper_model_cache` and
`_whisper_model_size`. -/
structure WhisperCache (M : Type) where
  cache : Option M
  size : Option String

/-- `_load_whisper_model`, with the underlying `whisper.load_model` made
explicit as `loader`.  Returns the model handed to the caller, the new
global state, and how many load calls were made (0 or 1). -/
def load_whisper_model {M : Type} (loader : String → M) (modelSize : String)
    (st : WhisperCache M) : M × WhisperCache M × Nat :=
  match st.cache with
  | none =>
    let m := loader modelSize
    (m, ⟨some m, some modelSize⟩, 1)
  | some m =>
    if st.size ≠ some modelSize then
      let m' := loader modelSize
      (m', ⟨some m', some modelSize⟩, 1)
    else
      (m, st, 0)

/-! ## Theorems -/

/-! ### Chunker lemmas: word splitting, grouping, counts -/

lemma groupWords_length {α : Type} (m : Nat) (hm : 1 ≤ m) (ws : List α) :
    (groupWords m ws).length = (ws.length + m - 1) / m := by
  induction ws using groupWords.induct m with
  | case1 =>
    have h : (m - 1) / m = 0 := Nat.div_eq_of_lt (by omega)
    simp [groupWords, h]
  | case2 w ws ih =>
    have hrw : ws.length + 1 + m - 1 = ws.length + m := by omega
    have hdiv : (ws.length + m) / m = ws.length / m + 1 :=
      Nat.add_div_right _ (by omega)
    simp only [groupWords, List.length_cons, List.length_drop] at *
    rw [hrw, hdiv]
    rcases Nat.lt_or_ge ws.length (m - 1) with hlt | hge
    · have h0 : ws.length - (m - 1) = 0 := by omega
      rw [h0] at ih
      have h1 : (0 + m - 1) / m = 0 := Nat.div_eq_of_lt (by omega)
      have h2 : ws.length / m = 0 := Nat.div_eq_of_lt (by omega)
      omega
    · have h0 : ws.length - (m - 1) + m - 1 = ws.length := by omega
      rw [h0] at ih
      omega

lemma takeWhile_append_of_all {α : Type} (p : α → Bool) (w l : List α)
    (hw : ∀ c ∈ w, p c) : (w ++ l).takeWhile p = w ++ l.takeWhile p := by
  induction w with
  | nil => simp
  | cons a w ih =>
    have ha : p a := hw a (by simp)
    simp [List.takeWhile_cons, ha]
    exact ih fun c hc => hw c (by simp [hc])

lemma dropWhile_append_of_all {α : Type} (p : α → Bool) (w l : List α)
    (hw : ∀ c ∈ w, p c) : (w ++ l).dropWhile p = l.dropWhile p := by
  induction w with
  | nil => simp
  | cons a w ih =>
    have ha : p a := hw a (by simp)
    simp [List.dropWhile_cons, ha]
    exact ih fun c hc => hw c (by simp [hc])

lemma splitWs_all_ws (l : List Char) (h : ∀ c ∈ l, c.isWhitespace = true) :
    splitWs l = [] := by
  induction l using splitWs.induct with
  | case1 => simp [splitWs]
  | case2 c cs hc ih =>
    rw [splitWs]
    simp only [hc, if_true]
    exact ih fun d hd => h d (by simp [hd])
  | case3 c cs hc ih =>
    exact absurd (h c (by simp)) (by simp [hc])

lemma splitWs_word_append (w l : List Char) (hne : w ≠ [])
    (hw : ∀ c ∈ w, c.isWhitespace = false)
    (hl : l = [] ∨ ∃ d t, l = d :: t ∧ d.isWhitespace = true) :
    splitWs (w ++ l) = w :: splitWs l := by
  rcases w with _ | ⟨c, w⟩
  · exact absurd rfl hne
  · have hc : c.isWhitespace = false := hw c (by simp)
    have hw' : ∀ c ∈ w, (fun d => !d.isWhitespace) c = true := by
      intro d hd; simp [hw d (by simp [hd])]
    rw [List.cons_append, splitWs]
    simp only [hc, Bool.false_eq_true, if_false]
    have htake : (w ++ l).takeWhile (fun d => !d.isWhitespace) = w ++ l.takeWhile (fun d => !d.isWhitespace) :=
      takeWhile_append_of_all _ w l hw'
    have hdrop : (w ++ l).dropWhile (fun d => !d.isWhitespace) = l.dropWhile (fun d => !d.isWhitespace) :=
      dropWhile_append_of_all _ w l hw'
    have htake2 : l.takeWhile (fun d => !d.isWhitespace) = [] := by
      rcases hl with rfl | ⟨d, t, rfl, hd⟩
      · rfl
      · simp [List.takeWhile_cons, hd]
    have hdrop2 : l.dropWhile (fun d => !d.isWhitespace) = l := by
      rcases hl with rfl | ⟨d, t, rfl, hd⟩
      · rfl
      · simp [List.dropWhile_cons, hd]
    rw [htake, hdrop, htake2, hdrop2, List.append_nil]

lemma dropWhile_head_false {α : Type} (p : α → Bool) (l : List α) (d : α)
    (r : List α) (h : l.dropWhile p = d :: r) : p d = false := by
  induction l with
  | nil => simp at h
  | cons a l ih =>
    rw [List.dropWhile_cons] at h
    by_cases hp : p a = true
    · rw [if_pos hp] at h
      exact ih h
    · rw [if_neg hp] at h
      obtain ⟨rfl, -⟩ := List.cons.inj h
      simpa using hp

lemma splitWs_append_all_ws (l t : List Char)
    (ht : ∀ c ∈ t, c.isWhitespace = true) : splitWs (l ++ t) = splitWs l := by
  induction l using splitWs.induct with
  | case1 =>
    rw [List.nil_append, splitWs_all_ws t ht]
    simp [splitWs]
  | case2 c cs hc ih =>
    rw [List.cons_append, splitWs, splitWs]
    simp only [hc, if_true]
    exact ih
  | case3 c cs hc ih =>
    rw [List.cons_append, splitWs, splitWs]
    simp only [hc, Bool.false_eq_true, if_false]
    rcases hdw : cs.dropWhile (fun d => !d.isWhitespace) with _ | ⟨d, r⟩
    · -- cs is all non-whitespace
      have hall : ∀ c ∈ cs, (fun d => !d.isWhitespace) c = true :=
        List.dropWhile_eq_nil_iff.mp hdw
      have htake : (cs ++ t).takeWhile (fun d => !d.isWhitespace) =
          cs ++ t.takeWhile (fun d => !d.isWhitespace) :=
        takeWhile_append_of_all _ cs t hall
      have htt : t.takeWhile (fun d => !d.isWhitespace) = [] := by
        rcases t with _ | ⟨d, r⟩
        · rfl
        · simp [List.takeWhile_cons, ht d (by simp)]
      have hdt : t.dropWhile (fun d => !d.isWhitespace) = t := by
        rcases t with _ | ⟨d, r⟩
        · rfl
        · simp [List.dropWhile_cons, ht d (by simp)]
      have hdrop : (cs ++ t).dropWhile (fun d => !d.isWhitespace) =
          t.dropWhile (fun d => !d.isWhitespace) :=
        dropWhile_append_of_all _ cs t hall
      rw [htake, htt, hdrop, hdt, List.append_nil,
        List.takeWhile_eq_self_iff.mpr hall, splitWs_all_ws t ht, hdw]
      simp [splitWs]
    · -- cs has a whitespace character; decompose cs
      have hcs : cs = cs.takeWhile (fun d => !d.isWhitespace) ++ (d :: r) := by
        conv_lhs => rw [← List.takeWhile_append_dropWhile (p := fun (x : Char) => !x.isWhitespace) (l := cs)]
        rw [hdw]
      have htw : ∀ x ∈ cs.takeWhile (fun d => !d.isWhitespace),
          (fun d => !d.isWhitespace) x = true := fun x hx =>
        List.mem_takeWhile_imp (p := fun (x : Char) => !x.isWhitespace) hx
      have hd : d.isWhitespace = true := by
        have := dropWhile_head_false (fun x => !x.isWhitespace) cs d r hdw
        simpa using this
      have htake : (cs ++ t).takeWhile (fun d => !d.isWhitespace) =
          cs.takeWhile (fun d => !d.isWhitespace) := by
        conv_lhs => rw [hcs]
        rw [List.append_assoc,
          takeWhile_append_of_all _ _ _ htw]
        simp [List.takeWhile_cons, hd]
      have hdrop : (cs ++ t).dropWhile (fun d => !d.isWhitespace) =
          (d :: r) ++ t := by
        conv_lhs => rw [hcs]
        rw [List.append_assoc, dropWhile_append_of_all _ _ _ htw]
        simp [List.dropWhile_cons, hd]
      rw [htake, hdrop, hdw]
      rw [hdw] at ih
      exact congrArg _ ih

lemma splitWs_dropWhile_ws (l : List Char) :
    splitWs (l.dropWhile Char.isWhitespace) = splitWs l := by
  induction l with
  | nil => rfl
  | cons c cs ih =>
    rw [List.dropWhile_cons]
    by_cases hc : c.isWhitespace = true
    · rw [if_pos hc, ih, splitWs, if_pos hc]
    · rw [if_neg hc]

lemma mem_of_mem_rev_takeWhile (l : List Char) (c : Char)
    (h : c ∈ l.reverse.takeWhile Char.isWhitespace) : c.isWhitespace = true :=
  List.mem_takeWhile_imp (p := Char.isWhitespace) h

lemma splitWs_trimWs (l : List Char) : splitWs (trimWs l) = splitWs l := by
  unfold trimWs
  set u := l.dropWhile Char.isWhitespace with hu
  have hdecomp : u = (u.reverse.dropWhile Char.isWhitespace).reverse ++
      (u.reverse.takeWhile Char.isWhitespace).reverse := by
    conv_lhs => rw [← List.reverse_reverse u,
      ← List.takeWhile_append_dropWhile (p := Char.isWhitespace) (l := u.reverse)]
    rw [List.reverse_append]
  have hws : ∀ c ∈ (u.reverse.takeWhile Char.isWhitespace).reverse,
      c.isWhitespace = true := by
    intro c hc
    exact mem_of_mem_rev_takeWhile u c (List.mem_reverse.mp hc)
  calc splitWs (u.reverse.dropWhile Char.isWhitespace).reverse
      = splitWs ((u.reverse.dropWhile Char.isWhitespace).reverse ++
          (u.reverse.takeWhile Char.isWhitespace).reverse) :=
        (splitWs_append_all_ws _ _ hws).symm
    _ = splitWs u := by rw [← hdecomp]
    _ = splitWs l := splitWs_dropWhile_ws l

lemma splitWs_mem_spec (l : List Char) :
    ∀ w ∈ splitWs l, w ≠ [] ∧ ∀ c ∈ w, c.isWhitespace = false := by
  induction l using splitWs.induct with
  | case1 => simp [splitWs]
  | case2 c cs hc ih =>
    rw [splitWs, if_pos hc]
    exact ih
  | case3 c cs hc ih =>
    rw [splitWs, if_neg hc]
    intro w hw
    rcases List.mem_cons.mp hw with rfl | hw'
    · refine ⟨by simp, ?_⟩
      intro x hx
      rcases List.mem_cons.mp hx with rfl | hx'
      · simpa using hc
      · have := List.mem_takeWhile_imp (p := fun (x : Char) => !x.isWhitespace) hx'
        simpa using this
    · exact ih w hw'

lemma splitWs_joinWords (gs : List (List Char))
    (h : ∀ w ∈ gs, w ≠ [] ∧ ∀ c ∈ w, c.isWhitespace = false) :
    splitWs (joinWords gs) = gs := by
  induction gs with
  | nil => simp [joinWords, splitWs]
  | cons w gs ih =>
    rcases gs with _ | ⟨g2, rest⟩
    · rw [joinWords]
      have hw := h w (by simp)
      rw [show w = w ++ [] by simp]
      rw [splitWs_word_append w [] hw.1 hw.2 (Or.inl rfl)]
      simp [splitWs]
    · rw [show joinWords (w :: g2 :: rest) = w ++ ' ' :: joinWords (g2 :: rest)
        from rfl]
      have hw := h w (by simp)
      rw [splitWs_word_append w (' ' :: joinWords (g2 :: rest)) hw.1 hw.2
        (Or.inr ⟨' ', joinWords (g2 :: rest), rfl, by decide⟩)]
      have hrest : splitWs (' ' :: joinWords (g2 :: rest)) =
          splitWs (joinWords (g2 :: rest)) := by
        rw [splitWs, if_pos (by decide)]
      rw [hrest, ih (fun x hx => h x (by simp [hx]))]

lemma chunksOf_ne_nil (t : String) (m : Nat) : chunksOf t m ≠ [] := by
  unfold chunksOf
  by_cases h : (splitWs t.data).length ≤ m
  · simp [h]
  · simp only [h, if_false]
    rcases hw : splitWs t.data with _ | ⟨w, ws⟩
    · rw [hw] at h
      simp at h
    · rw [groupWords]
      simp

lemma mem_of_mem_groupWords {α : Type} (m : Nat) (ws : List α) :
    ∀ g ∈ groupWords m ws, ∀ x ∈ g, x ∈ ws := by
  induction ws using groupWords.induct m with
  | case1 => simp [groupWords]
  | case2 w ws ih =>
    rw [groupWords]
    intro g hg x hx
    rcases List.mem_cons.mp hg with rfl | hg'
    · rcases List.mem_cons.mp hx with rfl | hx'
      · exact List.mem_cons_self _ _
      · exact List.mem_cons_of_mem _ (List.mem_of_mem_take hx')
    · exact List.mem_cons_of_mem _ (List.mem_of_mem_drop (ih g hg' x hx))

lemma chunksOf_length (t : String) (m : Nat) (hm : 1 ≤ m) :
    (chunksOf t m).length = max 1 (((splitWs t.data).length + m - 1) / m) := by
  unfold chunksOf
  by_cases h : (splitWs t.data).length ≤ m
  · rw [if_pos h]
    have hle : ((splitWs t.data).length + m - 1) / m ≤ 1 := by
      have h2 : (splitWs t.data).length + m - 1 < 2 * m := by omega
      have := (Nat.div_lt_iff_lt_mul (by omega : 0 < m)).mpr
        (by omega : (splitWs t.data).length + m - 1 < 2 * m)
      omega
    rw [List.length_singleton, Nat.max_eq_left hle]
  · rw [if_neg h, List.length_map, groupWords_length m hm]
    have hge : 1 ≤ ((splitWs t.data).length + m - 1) / m := by
      rw [Nat.one_le_div_iff (by omega : 0 < m)]
      omega
    rw [Nat.max_eq_right hge]



/-- **C3**: for every settings dictionary, the burn-in builder takes the
styled (ASS) code path iff `use-ass` is true or `highlight-position` is
present, regardless of the other flag's value. -/
theorem burn_styled_path_iff (st : Settings) :
    useStyledPath st = true ↔
      (st.useAss = some true ∨ st.highlightPosition ≠ none) := by
  rcases h1 : st.useAss with _ | b
  · rcases h2 : st.highlightPosition with _ | hp <;> simp [useStyledPath, h1, h2]
  · cases b <;> rcases h2 : st.highlightPosition with _ | hp <;>
      simp [useStyledPath, h1, h2]

/-- **C7**: the probes are total (never propagate an error): the
audio-presence probe returns a boolean, `false` whenever the underlying
call raised; the duration probe returns the fixed fallback `5.0` whenever
the call raised, the process exited nonzero (`check=True`), or the output
did not parse as a float. -/
theorem probe_failures_fall_back :
    (video_has_audio .raised = false) ∧
    (∀ parseFloat : String → Option ℚ,
       get_video_duration parseFloat .raised = 5) ∧
    (∀ (parseFloat : String → Option ℚ) (code : Nat) (out : String),
       code ≠ 0 → get_video_duration parseFloat (.exited code out) = 5) ∧
    (∀ (parseFloat : String → Option ℚ) (code : Nat) (out : String),
       parseFloat (pyStrip out) = none →
       get_video_duration parseFloat (.exited code out) = 5) := by
  refine ⟨rfl, fun _ => rfl, fun p code out h => ?_, fun p code out h => ?_⟩
  · simp [get_video_duration, h]
  · by_cases hc : code = 0 <;> simp [get_video_duration, hc, h]

/-- **C8**: the single-slot model cache: a request for the cached size
performs no load and returns the cached model; two sequential requests
for one size starting from the empty cache trigger exactly one load; a
request for a different size performs one load and replaces the single
slot with the new size only. -/
theorem whisper_cache_single_slot :
    (∀ (M : Type) (loader : String → M) (sz : String)
       (st : WhisperCache M) (m : M),
       st.cache = some m → st.size = some sz →
       load_whisper_model loader sz st = (m, st, 0)) ∧
    (∀ (M : Type) (loader : String → M) (sz : String),
       (load_whisper_model loader sz ⟨none, none⟩).2.2 +
       (load_whisper_model loader sz
         (load_whisper_model loader sz ⟨none, none⟩).2.1).2.2 = 1) ∧
    (∀ (M : Type) (loader : String → M) (szOld szNew : String)
       (st : WhisperCache M) (m : M),
       st.cache = some m → st.size = some szOld → szNew ≠ szOld →
       load_whisper_model loader szNew st =
         (loader szNew, ⟨some (loader szNew), some szNew⟩, 1)) := by
  refine ⟨fun M loader sz st m hc hs => ?_, fun M loader sz => ?_,
    fun M loader szOld szNew st m hc hs hne => ?_⟩
  · rcases st with ⟨c, s⟩
    cases hc; cases hs
    simp [load_whisper_model]
  · simp [load_whisper_model]
  · rcases st with ⟨c, s⟩
    cases hc; cases hs
    simp [load_whisper_model, Option.some_inj]
    intro h
    exact absurd h.symm hne

/-- **C8** witness: the cache behaviour at a concrete state and loader. -/
theorem whisper_cache_single_slot_witness :
    load_whisper_model (fun s => s) "base"
      (⟨some "base", some "base"⟩ : WhisperCache String) =
      ("base", ⟨some "base", some "base"⟩, 0) ∧
    load_whisper_model (fun s => s) "tiny"
      (⟨some "base", some "base"⟩ : WhisperCache String) =
      ("tiny", ⟨some "tiny", some "tiny"⟩, 1) :=
  ⟨whisper_cache_single_slot.1 String (fun s => s) "base" _ _ rfl rfl,
   whisper_cache_single_slot.2.2 String (fun s => s) "base" "tiny" _ _ rfl rfl
     (by decide)⟩

lemma replaceMp4_length (rep l : List Char) :
    (replaceMp4 rep l).length + 4 * countMp4 l =
      l.length + rep.length * countMp4 l := by
  induction l using replaceMp4.induct rep with
  | _ => simp_all [replaceMp4, countMp4, Nat.mul_add, Nat.mul_one] <;> linarith

lemma countMp4_pos (l : List Char) (h : containsMp4 l = true) :
    1 ≤ countMp4 l := by
  induction l using countMp4.induct with
  | _ => simp_all [containsMp4, countMp4]

lemma replaceMp4_of_not_contains (rep l : List Char)
    (h : containsMp4 l = false) : replaceMp4 rep l = l := by
  induction l using replaceMp4.induct rep with
  | _ => simp_all [containsMp4, replaceMp4]

lemma replaceMp4_ne_of_contains (rep l : List Char) (hrep : rep.length = 9)
    (h : containsMp4 l = true) : replaceMp4 rep l ≠ l := by
  intro heq
  have hlen := replaceMp4_length rep l
  have hpos := countMp4_pos l h
  rw [heq, hrep] at hlen
  omega

/-- **C6 counterexample**: for the input path `"video.mov"` (no `".mp4"`
to replace) the derived sidecar paths equal the input path itself, so the
claimed distinctness fails and writing the subtitle document would
overwrite the input video. -/
theorem sidecar_path_counterexample :
    assSidecarPath "video.mov" = "video.mov" ∧
    srtSidecarPath "video.mov" = "video.mov" := by
  constructor <;> rfl

/-- **C6 amended**: the sidecar path (input path with every `".mp4"`
occurrence replaced) is distinct from the input path iff the input
contains `".mp4"`; otherwise the replacement is the identity and the
sidecar path coincides with the input path. -/
theorem sidecar_path_distinct_iff (p : String) :
    (containsMp4 p.data = true →
       assSidecarPath p ≠ p ∧ srtSidecarPath p ≠ p) ∧
    (containsMp4 p.data = false →
       assSidecarPath p = p ∧ srtSidecarPath p = p) := by
  constructor
  · intro h
    constructor
    · intro heq
      have hd : replaceMp4 "_temp.ass".data p.data = p.data :=
        congrArg String.data heq
      exact replaceMp4_ne_of_contains "_temp.ass".data p.data rfl h hd
    · intro heq
      have hd : replaceMp4 "_temp.srt".data p.data = p.data :=
        congrArg String.data heq
      exact replaceMp4_ne_of_contains "_temp.srt".data p.data rfl h hd
  · intro h
    constructor <;>
    · show String.mk (replaceMp4 _ p.data) = p
      rw [replaceMp4_of_not_contains _ _ h]

/-- **C9**: on the empty segment list both serializers succeed:
`write_srt` returns the empty string and `write_ass` returns exactly the
fixed document header (script info, one style record, the events format
line) with zero event lines. -/
theorem serializers_on_empty_input :
    (∀ m : Nat, write_srt [] m = "") ∧
    (∀ (m : Nat) (st : Settings), write_ass [] m st = assHeader st) := by
  constructor
  · intro m; rfl
  · intro m st
    show assHeader st ++ String.join [] = assHeader st
    simp [String.join]

set_option maxRecDepth 8192 in
/-- **C10**: in the line-format (SRT) burn-in path the `force_style`
string contains the literal `Bold=1` for every settings dictionary, and
the `bold` configuration flag has no effect on it at all — unlike the
styled path, whose style record carries `-1`/`0` exactly as the flag
says. -/
theorem srt_force_style_always_bold :
    (∀ (p : String) (st : Settings), ∃ pre post : List Char,
       (srtSubtitleFilter p st).data = pre ++ "Bold=1".data ++ post) ∧
    (∀ (p : String) (st : Settings) (b : Option Bool),
       srtSubtitleFilter p { st with bold := b } = srtSubtitleFilter p st) ∧
    (∀ st : Settings, ∃ pre post : List Char,
       (assHeader st).data =
         pre ++ (if st.bold.getD false then "-1" else "0").data ++ post) := by
  refine ⟨fun p st => ?_, fun p st b => ?_, fun st => ?_⟩
  · have hsplit : ("Bold=1," : String).data = "Bold=1".data ++ ",".data := rfl
    refine ⟨("subtitles=" ++ p ++ ":force_style='" ++ "FontName=" ++
      st.fontFamily.getD "Montserrat-Bold" ++ "," ++ "FontSize=" ++
      numStr (st.fontSize.getD 10) ++ ",").data,
      ("," ++ "PrimaryColour=" ++
        burnHexColor (st.primaryColor.getD (st.wordColor.getD "#FFFFFF")) ++ "," ++
        "OutlineColour=" ++ burnHexColor (st.outlineColor.getD "#000000") ++ "," ++
        "BackColour=" ++ burnHexColor (st.shadowColor.getD "#000000") ++ "," ++
        "BorderStyle=1," ++
        "Outline=" ++ numStr (st.outlineWidth.getD (1/2)) ++ "," ++
        "Shadow=" ++ numStr (st.shadowOffset.getD (3/10)) ++ "," ++
        "Alignment=2," ++
        "MarginV=" ++ toString (pyInt (st.y.getD 50)) ++ "'").data, ?_⟩
    simp [srtSubtitleFilter, String.data_append, hsplit, List.append_assoc]
  · simp [srtSubtitleFilter]
  · refine ⟨("[Script Info]\nTitle: Subtitles\nScriptType: v4.00+\nWrapStyle: 0\n" ++
      "PlayResX: 1080\nPlayResY: 1920\nScaledBorderAndShadow: yes\n\n" ++
      "[V4+ Styles]\n" ++
      "Format: Name, Fontname, Fontsize, PrimaryColour, SecondaryColour, " ++
      "OutlineColour, BackColour, Bold, Italic, Underline, StrikeOut, " ++
      "ScaleX, ScaleY, Spacing, Angle, BorderStyle, Outline, Shadow, " ++
      "Alignment, MarginL, MarginR, MarginV, Encoding\n" ++
      "Style: Default," ++ st.fontFamily.getD "Arial Black" ++ "," ++
      numStr (st.fontSize.getD 32) ++ "," ++
      hex_to_ass_color (st.primaryColor.getD "#FFFFFF") ++ ",&H000000FF," ++
      hex_to_ass_color (st.outlineColor.getD "#000000") ++ ",&H00000000,").data,
      (",0,0,0,100,100,0,0,3," ++ numStr (st.outlineWidth.getD 3) ++ "," ++
        numStr (st.shadowOffset.getD 2) ++ ",2,40,40," ++
        numStr (st.y.getD 960) ++ ",1\n\n" ++ "[Events]\n" ++
        "Format: Layer, Start, End, Style, Name, MarginL, MarginR, MarginV, " ++
        "Effect, Text\n").data, ?_⟩
    simp [assHeader, String.data_append, List.append_assoc]

/-- **C2**: the chunker produces exactly `max 1 ⌈wordCount/m⌉` chunks;
a segment whose word count is within the limit yields the single chunk
equal to the trimmed segment text; a 7-word text with limit 3 yields
chunks of 3, 3 and 1 words, in order. -/
theorem write_srt_chunk_counts (t : String) (m : Nat) (hm : 1 ≤ m) :
    (chunksOf (pyStrip t) m).length = max 1 ((wordCount t + m - 1) / m) ∧
    (wordCount t ≤ m → chunksOf (pyStrip t) m = [pyStrip t]) ∧
    (wordCount t = 7 → m = 3 →
      (chunksOf (pyStrip t) m).map wordCount = [3, 3, 1]) := by
  have hsw : splitWs (pyStrip t).data = splitWs t.data := splitWs_trimWs t.data
  refine ⟨?_, ?_, ?_⟩
  · rw [chunksOf_length _ m hm]
    unfold wordCount
    rw [hsw]
  · intro h
    unfold chunksOf
    rw [if_pos (by rw [hsw]; exact h)]
  · intro h7 hm3
    subst hm3
    have hlen : (splitWs (pyStrip t).data).length = 7 := by rw [hsw]; exact h7
    have hspec := splitWs_mem_spec (pyStrip t).data
    unfold chunksOf
    rw [if_neg (by omega)]
    rcases hw : splitWs (pyStrip t).data with _ | ⟨a, l⟩
    · rw [hw] at hlen; simp at hlen
    rcases l with _ | ⟨b, l⟩
    · rw [hw] at hlen; simp at hlen
    rcases l with _ | ⟨c, l⟩
    · rw [hw] at hlen; simp at hlen
    rcases l with _ | ⟨d, l⟩
    · rw [hw] at hlen; simp at hlen
    rcases l with _ | ⟨e, l⟩
    · rw [hw] at hlen; simp at hlen
    rcases l with _ | ⟨f, l⟩
    · rw [hw] at hlen; simp at hlen
    rcases l with _ | ⟨g, l⟩
    · rw [hw] at hlen; simp at hlen
    rcases l with _ | ⟨x, l⟩
    swap
    · rw [hw] at hlen; simp at hlen
    rw [hw] at hspec
    have hga : (groupWords 3 [a, b, c, d, e, f, g]) = [[a, b, c], [d, e, f], [g]] := by
      rw [groupWords.eq_def]
      norm_num [List.take, List.drop]
      rw [groupWords.eq_def]
      norm_num [List.take, List.drop]
      rw [groupWords.eq_def]
      norm_num [List.take, List.drop]
      rw [groupWords.eq_def]
    rw [hga]
    have hj : ∀ w : List Char, w ∈ ([a,b,c,d,e,f,g] : List (List Char)) →
        w ≠ [] ∧ ∀ ch ∈ w, ch.isWhitespace = false := hspec
    simp only [List.map_cons, List.map_nil]
    have e1 : wordCount ⟨joinWords [a, b, c]⟩ = 3 := by
      unfold wordCount
      rw [show (String.mk (joinWords [a,b,c])).data = joinWords [a,b,c] from rfl]
      rw [splitWs_joinWords [a,b,c] (by intro w hw'; apply hj; simp at hw' ⊢; tauto)]
      rfl
    have e2 : wordCount ⟨joinWords [d, e, f]⟩ = 3 := by
      unfold wordCount
      rw [show (String.mk (joinWords [d,e,f])).data = joinWords [d,e,f] from rfl]
      rw [splitWs_joinWords [d,e,f] (by intro w hw'; apply hj; simp at hw' ⊢; tauto)]
      rfl
    have e3 : wordCount ⟨joinWords [g]⟩ = 1 := by
      unfold wordCount
      rw [show (String.mk (joinWords [g])).data = joinWords [g] from rfl]
      rw [splitWs_joinWords [g] (by intro w hw'; apply hj; simp at hw' ⊢; tauto)]
      rfl
    rw [e1, e2, e3]

/-- **C2 witness**: the chunk-count facts instantiated at a concrete
7-word text and limit 3. -/
theorem write_srt_chunk_counts_witness :
    (chunksOf (pyStrip "a b c d e f g") 3).length =
      max 1 ((wordCount "a b c d e f g" + 3 - 1) / 3) ∧
    (wordCount "a b c d e f g" ≤ 3 →
      chunksOf (pyStrip "a b c d e f g") 3 = [pyStrip "a b c d e f g"]) ∧
    (wordCount "a b c d e f g" = 7 → 3 = 3 →
      (chunksOf (pyStrip "a b c d e f g") 3).map wordCount = [3, 3, 1]) :=
  write_srt_chunk_counts "a b c d e f g" 3 (by norm_num)

/-- **C1**: for a segment with `start ≤ end` and a word limit `≥ 1`, the
chunker assigns chunk `i` the interval
`[start + i*chunk_duration, start + (i+1)*chunk_duration)` with
`chunk_duration = (end-start)/chunk_count`; the intervals are contiguous,
non-overlapping, and their durations sum to the segment's duration
exactly (rational arithmetic). -/
theorem chunk_interval_tiling (seg : Seg) (m : Nat) (_hm : 1 ≤ m)
    (hse : seg.start ≤ seg.stop) :
    1 ≤ (segChunks seg m).length ∧
    chunk_duration seg m =
      (seg.stop - seg.start) / ((segChunks seg m).length : ℚ) ∧
    (∀ i : Nat,
      chunk_start seg m i = seg.start + i * chunk_duration seg m ∧
      chunk_stop seg m i = seg.start + (i + 1 : ℚ) * chunk_duration seg m) ∧
    (∀ i : Nat, chunk_stop seg m i = chunk_start seg m (i + 1)) ∧
    (∀ i j : Nat, i < j → chunk_stop seg m i ≤ chunk_start seg m j) ∧
    (∑ i ∈ Finset.range (segChunks seg m).length,
        (chunk_stop seg m i - chunk_start seg m i)) =
      seg.stop - seg.start := by
  have hne : segChunks seg m ≠ [] := chunksOf_ne_nil _ m
  have hn : 1 ≤ (segChunks seg m).length := List.length_pos.mpr hne
  have hd0 : 0 ≤ chunk_duration seg m := by
    unfold chunk_duration
    apply div_nonneg (by linarith)
    exact_mod_cast Nat.zero_le _
  refine ⟨hn, rfl, fun i => ⟨rfl, rfl⟩, fun i => ?_, fun i j hij => ?_, ?_⟩
  · unfold chunk_start chunk_stop
    push_cast
    ring
  · unfold chunk_start chunk_stop
    have : ((i : ℚ) + 1) ≤ (j : ℚ) := by exact_mod_cast hij
    have := mul_le_mul_of_nonneg_right this hd0
    linarith
  · have hsum : ∀ i ∈ Finset.range (segChunks seg m).length,
        chunk_stop seg m i - chunk_start seg m i = chunk_duration seg m := by
      intro i _
      unfold chunk_start chunk_stop
      ring
    rw [Finset.sum_congr rfl hsum, Finset.sum_const, Finset.card_range,
      nsmul_eq_mul]
    unfold chunk_duration
    rw [mul_div_cancel₀]
    have : (0 : ℚ) < ((segChunks seg m).length : ℚ) := by exact_mod_cast hn
    exact ne_of_gt this

/-- **C1 witness**: the tiling facts at a concrete segment and limit. -/
theorem chunk_interval_tiling_witness :
    1 ≤ (segChunks ⟨0, 7, "hello world this is a test run"⟩ 3).length ∧
    chunk_duration ⟨0, 7, "hello world this is a test run"⟩ 3 =
      ((⟨0, 7, "hello world this is a test run"⟩ : Seg).stop -
        (⟨0, 7, "hello world this is a test run"⟩ : Seg).start) /
        ((segChunks ⟨0, 7, "hello world this is a test run"⟩ 3).length : ℚ) ∧
    (∀ i : Nat,
      chunk_start ⟨0, 7, "hello world this is a test run"⟩ 3 i =
        (⟨0, 7, "hello world this is a test run"⟩ : Seg).start +
          i * chunk_duration ⟨0, 7, "hello world this is a test run"⟩ 3 ∧
      chunk_stop ⟨0, 7, "hello world this is a test run"⟩ 3 i =
        (⟨0, 7, "hello world this is a test run"⟩ : Seg).start +
          (i + 1 : ℚ) * chunk_duration ⟨0, 7, "hello world this is a test run"⟩ 3) ∧
    (∀ i : Nat,
      chunk_stop ⟨0, 7, "hello world this is a test run"⟩ 3 i =
        chunk_start ⟨0, 7, "hello world this is a test run"⟩ 3 (i + 1)) ∧
    (∀ i j : Nat, i < j →
      chunk_stop ⟨0, 7, "hello world this is a test run"⟩ 3 i ≤
        chunk_start ⟨0, 7, "hello world this is a test run"⟩ 3 j) ∧
    (∑ i ∈ Finset.range (segChunks ⟨0, 7, "hello world this is a test run"⟩ 3).length,
        (chunk_stop ⟨0, 7, "hello world this is a test run"⟩ 3 i -
          chunk_start ⟨0, 7, "hello world this is a test run"⟩ 3 i)) =
      (⟨0, 7, "hello world this is a test run"⟩ : Seg).stop -
        (⟨0, 7, "hello world this is a test run"⟩ : Seg).start :=
  chunk_interval_tiling ⟨0, 7, "hello world this is a test run"⟩ 3
    (by norm_num) (by norm_num)

lemma range_filter_beq (n j : Nat) (hj : j < n) :
    (List.range n).filter (fun i => i == j) = [j] := by
  induction n with
  | zero => omega
  | succ n ih =>
    rw [List.range_succ, List.filter_append]
    rcases Nat.lt_or_ge j n with hlt | hge
    · rw [ih hlt]
      have : (n == j) = false := by simp; omega
      simp [this]
    · have hj' : j = n := by omega
      subst hj'
      have h1 : (List.range j).filter (fun i => i == j) = [] := by
        apply List.filter_eq_nil_iff.mpr
        intro a ha
        have : a < j := List.mem_range.mp ha
        simp
        omega
      simp [h1]

lemma range_filter_single (n j : Nat) (hj : j < n) (p : Nat → Bool)
    (hp : ∀ i, p i = true ↔ i = j) : (List.range n).filter p = [j] := by
  rw [List.filter_congr (fun a _ => ?_), range_filter_beq n j hj]
  rcases hq : p a with _ | _
  · symm
    rw [beq_eq_false_iff_ne]
    intro haj
    exact absurd ((hp a).mpr haj) (by simp [hq])
  · have := (hp a).mp hq
    simp [this]

lemma sh_first (i n : Nat) : shouldHighlight (.str "first") i n = true ↔ i = 0 := by
  unfold shouldHighlight
  by_cases h : i = 0 <;> simp [h]

lemma sh_last (i n : Nat) : shouldHighlight (.str "last") i n = true ↔ i = n - 1 := by
  unfold shouldHighlight
  by_cases h : i = n - 1 <;> by_cases h0 : i = 0 <;> simp [h, h0]

lemma sh_int (k : ℤ) (i n : Nat) :
    shouldHighlight (.int k) i n = true ↔ (i : ℤ) = k := by
  unfold shouldHighlight
  simp

/-- **C4**: in a styled chunk with at least one word, exactly one word is
highlighted: index 0 for `"first"`, the last index for `"last"`, index
`k` for an in-range integer `k`; an out-of-range integer highlights no
word and raises no error, leaving the word list untouched; all other
words are mapped through unchanged, in order. -/
theorem styled_chunk_highlighting (ws : List String) (hc pc : String)
    (hne : ws ≠ []) :
    highlightedIndices (.str "first") ws.length = [0] ∧
    highlightedIndices (.str "last") ws.length = [ws.length - 1] ∧
    (∀ k : ℤ, 0 ≤ k → k < (ws.length : ℤ) →
       highlightedIndices (.int k) ws.length = [k.toNat]) ∧
    (∀ k : ℤ, k < 0 ∨ (ws.length : ℤ) ≤ k →
       highlightedIndices (.int k) ws.length = [] ∧
       formatWords ws (.int k) hc pc = ws) ∧
    (∀ pos : HPos, formatWords ws pos hc pc =
       ws.enum.map fun p =>
         if p.1 ∈ highlightedIndices pos ws.length then wrapHighlight hc pc p.2
         else p.2) := by
  have hn : 0 < ws.length := List.length_pos.mpr hne
  refine ⟨?_, ?_, fun k hk0 hkn => ?_, fun k hk => ⟨?_, ?_⟩, fun pos => ?_⟩
  · exact range_filter_single _ 0 hn _ (fun i => sh_first i ws.length)
  · exact range_filter_single _ (ws.length - 1) (by omega) _
      (fun i => sh_last i ws.length)
  · refine range_filter_single _ k.toNat (by omega) _ (fun i => ?_)
    rw [sh_int]
    omega
  · apply List.filter_eq_nil_iff.mpr
    intro i hi
    have hilt : i < ws.length := List.mem_range.mp hi
    simp only [Bool.not_eq_true]
    rw [← Bool.not_eq_true, sh_int]
    omega
  · unfold formatWords
    have : ∀ p ∈ ws.enum,
        (if shouldHighlight (.int k) p.1 ws.length then wrapHighlight hc pc p.2
          else p.2) = p.2 := by
      intro p hp
      have : shouldHighlight (.int k) p.1 ws.length = false := by
        rw [← Bool.not_eq_true, sh_int]
        have := List.fst_lt_of_mem_enum hp
        omega
      simp [this]
    rw [List.map_congr_left this, List.enum_map_snd]
  · unfold formatWords
    apply List.map_congr_left
    intro p hp
    have hplt : p.1 < ws.length := List.fst_lt_of_mem_enum hp
    have hmem : p.1 ∈ highlightedIndices pos ws.length ↔
        shouldHighlight pos p.1 ws.length = true := by
      unfold highlightedIndices
      rw [List.mem_filter, List.mem_range]
      tauto
    by_cases hsh : shouldHighlight pos p.1 ws.length = true
    · rw [if_pos hsh, if_pos (hmem.mpr hsh)]
    · rw [if_neg hsh, if_neg (fun hm => hsh (hmem.mp hm))]

/-- **C4 witness**: the highlighting facts at a concrete two-word chunk. -/
theorem styled_chunk_highlighting_witness :
    highlightedIndices (.str "first") (["alpha", "beta"] : List String).length = [0] ∧
    highlightedIndices (.str "last") (["alpha", "beta"] : List String).length =
      [(["alpha", "beta"] : List String).length - 1] ∧
    (∀ k : ℤ, 0 ≤ k → k < ((["alpha", "beta"] : List String).length : ℤ) →
       highlightedIndices (.int k) (["alpha", "beta"] : List String).length = [k.toNat]) ∧
    (∀ k : ℤ, k < 0 ∨ ((["alpha", "beta"] : List String).length : ℤ) ≤ k →
       highlightedIndices (.int k) (["alpha", "beta"] : List String).length = [] ∧
       formatWords ["alpha", "beta"] (.int k) "H" "P" = ["alpha", "beta"]) ∧
    (∀ pos : HPos, formatWords ["alpha", "beta"] pos "H" "P" =
       (["alpha", "beta"] : List String).enum.map fun p =>
         if p.1 ∈ highlightedIndices pos (["alpha", "beta"] : List String).length
         then wrapHighlight "H" "P" p.2 else p.2) :=
  styled_chunk_highlighting ["alpha", "beta"] "H" "P" (by simp)


/-! ### Timestamp formatting lemmas -/

lemma digitChar_lt {a b : Nat} (hab : a < b) (hb : b < 10) :
    Nat.digitChar a < Nat.digitChar b := by
  interval_cases b <;> interval_cases a <;> decide

lemma natChars_of_lt_ten {n : Nat} (h : n < 10) :
    natChars n = [Nat.digitChar n] := by
  interval_cases n <;> rfl

lemma padDigits_append_lex (w : Nat) {a b : Nat} (hab : a < b)
    (hb : b < 10 ^ w) (u v : List Char) :
    List.Lex (· < ·) (padDigits w a ++ u) (padDigits w b ++ v) := by
  induction w generalizing a b u v with
  | zero => omega
  | succ w ih =>
    have hda : a / 10 ^ w ≤ b / 10 ^ w := Nat.div_le_div_right (le_of_lt hab)
    rw [padDigits, padDigits, List.cons_append, List.cons_append]
    rcases Nat.lt_or_ge (a / 10 ^ w) (b / 10 ^ w) with hlt | hge
    · apply List.Lex.rel
      apply digitChar_lt hlt
      have hp : 0 < 10 ^ w := Nat.pos_pow_of_pos w (by omega)
      rw [Nat.div_lt_iff_lt_mul hp]
      calc b < 10 ^ (w + 1) := hb
        _ = 10 * 10 ^ w := by ring
    · have heq : a / 10 ^ w = b / 10 ^ w := le_antisymm hda hge
      rw [heq]
      apply List.Lex.cons
      apply ih ?_ (Nat.mod_lt _ (Nat.pos_pow_of_pos w (by omega)))
      have h1 := Nat.div_add_mod a (10 ^ w)
      have h2 := Nat.div_add_mod b (10 ^ w)
      rw [heq] at h1
      have := hab
      omega

lemma string_mk_le_of_lex {l1 l2 : List Char}
    (h : List.Lex (· < ·) l1 l2 ∨ l1 = l2) : (⟨l1⟩ : String) ≤ ⟨l2⟩ := by
  rcases h with h | rfl
  · rw [String.le_iff_toList_le]
    exact le_of_lt h
  · exact le_refl _

lemma srt_chars_mono (N1 N2 : ℕ) (h12 : N1 ≤ N2) (hb : N2 < 86400000) :
    (⟨padDigits 2 (N1 / 3600000) ++ ':' :: padDigits 2 (N1 / 60000 % 60) ++
      ':' :: padDigits 2 (N1 / 1000 % 60) ++ ',' :: padDigits 3 (N1 % 1000)⟩ : String) ≤
    ⟨padDigits 2 (N2 / 3600000) ++ ':' :: padDigits 2 (N2 / 60000 % 60) ++
      ':' :: padDigits 2 (N2 / 1000 % 60) ++ ',' :: padDigits 3 (N2 % 1000)⟩ := by
  rcases Nat.eq_or_lt_of_le h12 with rfl | hlt
  · exact string_mk_le_of_lex (Or.inr rfl)
  apply string_mk_le_of_lex
  left
  simp only [List.append_assoc, List.cons_append]
  rcases Nat.lt_or_ge (N1 / 3600000) (N2 / 3600000) with hlth | hgeh
  · exact padDigits_append_lex 2 hlth (by omega) _ _
  · have heqh : N1 / 3600000 = N2 / 3600000 :=
      le_antisymm (Nat.div_le_div_right h12) hgeh
    rw [heqh]
    apply List.Lex.append_left
    apply List.Lex.cons
    rcases Nat.lt_or_ge (N1 / 60000 % 60) (N2 / 60000 % 60) with hltm | hgem
    · exact padDigits_append_lex 2 hltm (by omega) _ _
    · have heqm : N1 / 60000 % 60 = N2 / 60000 % 60 :=
        le_antisymm (by omega) hgem
      rw [heqm]
      apply List.Lex.append_left
      apply List.Lex.cons
      rcases Nat.lt_or_ge (N1 / 1000 % 60) (N2 / 1000 % 60) with hlts | hges
      · exact padDigits_append_lex 2 hlts (by omega) _ _
      · have heqs : N1 / 1000 % 60 = N2 / 1000 % 60 :=
          le_antisymm (by omega) hges
        rw [heqs]
        apply List.Lex.append_left
        apply List.Lex.cons
        have hltms : N1 % 1000 < N2 % 1000 := by omega
        simpa using padDigits_append_lex 3 hltms (by omega) [] []

lemma ass_chars_mono (N1 N2 : ℕ) (h12 : N1 ≤ N2) (hb : N2 < 3600000) :
    (⟨natChars (N1 / 360000) ++ ':' :: padDigits 2 (N1 / 6000 % 60) ++
      ':' :: padDigits 2 (N1 / 100 % 60) ++ '.' :: padDigits 2 (N1 % 100)⟩ : String) ≤
    ⟨natChars (N2 / 360000) ++ ':' :: padDigits 2 (N2 / 6000 % 60) ++
      ':' :: padDigits 2 (N2 / 100 % 60) ++ '.' :: padDigits 2 (N2 % 100)⟩ := by
  rcases Nat.eq_or_lt_of_le h12 with rfl | hlt
  · exact string_mk_le_of_lex (Or.inr rfl)
  apply string_mk_le_of_lex
  left
  rw [natChars_of_lt_ten (show N1 / 360000 < 10 by omega),
    natChars_of_lt_ten (show N2 / 360000 < 10 by omega)]
  simp only [List.append_assoc, List.cons_append, List.nil_append]
  rcases Nat.lt_or_ge (N1 / 360000) (N2 / 360000) with hlth | hgeh
  · exact List.Lex.rel (digitChar_lt hlth (by omega))
  · have heqh : N1 / 360000 = N2 / 360000 :=
      le_antisymm (Nat.div_le_div_right h12) hgeh
    rw [heqh]
    apply List.Lex.cons
    apply List.Lex.cons
    rcases Nat.lt_or_ge (N1 / 6000 % 60) (N2 / 6000 % 60) with hltm | hgem
    · exact padDigits_append_lex 2 hltm (by omega) _ _
    · have heqm : N1 / 6000 % 60 = N2 / 6000 % 60 :=
        le_antisymm (by omega) hgem
      rw [heqm]
      apply List.Lex.append_left
      apply List.Lex.cons
      rcases Nat.lt_or_ge (N1 / 100 % 60) (N2 / 100 % 60) with hlts | hges
      · exact padDigits_append_lex 2 hlts (by omega) _ _
      · have heqs : N1 / 100 % 60 = N2 / 100 % 60 :=
          le_antisymm (by omega) hges
        rw [heqs]
        apply List.Lex.append_left
        apply List.Lex.cons
        have hltcs : N1 % 100 < N2 % 100 := by omega
        simpa using padDigits_append_lex 2 hltcs (by omega) [] []

lemma format_time_eq (s : ℚ) (hs : 0 ≤ s) :
    format_time s = ⟨padDigits 2 (⌊1000 * s⌋₊ / 3600000) ++
      ':' :: padDigits 2 (⌊1000 * s⌋₊ / 60000 % 60) ++
      ':' :: padDigits 2 (⌊1000 * s⌋₊ / 1000 % 60) ++
      ',' :: padDigits 3 (⌊1000 * s⌋₊ % 1000)⟩ := by
  simp only [format_time]
  set N : ℕ := ⌊1000 * s⌋₊ with hNdef
  -- the hours field
  have hH : ⌊s / 3600⌋.toNat = N / 3600000 := by
    rw [Int.floor_toNat, show s / 3600 = (1000 * s) / ((3600000 : ℕ) : ℚ) by
      push_cast; ring, Nat.floor_div_nat]
  have hH0 : (0 : ℤ) ≤ ⌊s / 3600⌋ :=
    Int.floor_nonneg.mpr (by positivity)
  have hHcast : ((⌊s / 3600⌋ : ℤ) : ℚ) = ((N / 3600000 : ℕ) : ℚ) := by
    rw [← hH]
    exact_mod_cast congrArg (fun z : ℤ => (z : ℚ)) (Int.toNat_of_nonneg hH0).symm
  -- the remainder and its millisecond floor
  have hr0 : 0 ≤ s - 3600 * ((⌊s / 3600⌋ : ℤ) : ℚ) := by
    have hfl := Int.floor_le (s / 3600)
    have h1 := mul_le_mul_of_nonneg_left hfl (by norm_num : (0:ℚ) ≤ 3600)
    have h2 : (3600 : ℚ) * (s / 3600) = s := by ring
    linarith
  have hrfloor : ⌊1000 * (s - 3600 * ((⌊s / 3600⌋ : ℤ) : ℚ))⌋₊ = N % 3600000 := by
    rw [show (1000 : ℚ) * (s - 3600 * ((⌊s / 3600⌋ : ℤ) : ℚ)) =
        1000 * s - ((3600000 * (N / 3600000) : ℕ) : ℚ) by
      rw [hHcast]; push_cast; ring]
    rw [Nat.floor_sub_nat]
    have := Nat.div_mul_le_self N 3600000
    omega
  -- the minutes field
  have hM : ⌊(s - 3600 * ((⌊s / 3600⌋ : ℤ) : ℚ)) / 60⌋.toNat = N / 60000 % 60 := by
    rw [Int.floor_toNat, show (s - 3600 * ((⌊s / 3600⌋ : ℤ) : ℚ)) / 60 =
      (1000 * (s - 3600 * ((⌊s / 3600⌋ : ℤ) : ℚ))) / ((60000 : ℕ) : ℚ) by
        push_cast; ring, Nat.floor_div_nat, hrfloor]
    omega
  have hM0 : (0 : ℤ) ≤ ⌊(s - 3600 * ((⌊s / 3600⌋ : ℤ) : ℚ)) / 60⌋ :=
    Int.floor_nonneg.mpr (by positivity)
  have hMcast : ((⌊(s - 3600 * ((⌊s / 3600⌋ : ℤ) : ℚ)) / 60⌋ : ℤ) : ℚ) =
      ((N / 60000 % 60 : ℕ) : ℚ) := by
    rw [← hM]
    exact_mod_cast congrArg (fun z : ℤ => (z : ℚ)) (Int.toNat_of_nonneg hM0).symm
  -- seconds
  set r : ℚ := s - 3600 * ((⌊s / 3600⌋ : ℤ) : ℚ) with hrdef
  set Mz : ℤ := ⌊r / 60⌋ with hMzdef
  clear_value Mz
  clear_value r
  have hsec0 : 0 ≤ r - 60 * (Mz : ℚ) := by
    have hfl := Int.floor_le (r / 60)
    rw [← hMzdef] at hfl
    have h1 := mul_le_mul_of_nonneg_left hfl (by norm_num : (0:ℚ) ≤ 60)
    have h2 : (60 : ℚ) * (r / 60) = r := by ring
    linarith
  have hsecfloor : ⌊1000 * (r - 60 * (Mz : ℚ))⌋₊ = N % 60000 := by
    rw [show (1000 : ℚ) * (r - 60 * (Mz : ℚ)) =
        1000 * r - ((60000 * (N / 60000 % 60) : ℕ) : ℚ) by
      rw [hMcast]; push_cast; ring]
    rw [Nat.floor_sub_nat, hrfloor]
    omega
  have hS : ⌊r - 60 * (Mz : ℚ)⌋.toNat = N / 1000 % 60 := by
    rw [Int.floor_toNat]
    have heq : r - 60 * (Mz : ℚ) =
        (1000 * (r - 60 * (Mz : ℚ))) / ((1000 : ℕ) : ℚ) := by push_cast; ring
    conv_lhs => rw [heq]
    rw [Nat.floor_div_nat, hsecfloor]
    omega
  have hS0 : (0 : ℤ) ≤ ⌊r - 60 * (Mz : ℚ)⌋ := Int.floor_nonneg.mpr hsec0
  have hScast : ((⌊r - 60 * (Mz : ℚ)⌋ : ℤ) : ℚ) = ((N / 1000 % 60 : ℕ) : ℚ) := by
    rw [← hS]
    exact_mod_cast congrArg (fun z : ℤ => (z : ℚ)) (Int.toNat_of_nonneg hS0).symm
  -- milliseconds
  have hMS : ⌊(r - 60 * (Mz : ℚ) - ((⌊r - 60 * (Mz : ℚ)⌋ : ℤ) : ℚ)) * 1000⌋.toNat =
      N % 1000 := by
    rw [Int.floor_toNat, show (r - 60 * (Mz : ℚ) - ((⌊r - 60 * (Mz : ℚ)⌋ : ℤ) : ℚ)) * 1000 =
        1000 * (r - 60 * (Mz : ℚ)) - ((1000 * (N / 1000 % 60) : ℕ) : ℚ) by
      rw [hScast]; push_cast; ring]
    rw [Nat.floor_sub_nat, hsecfloor]
    omega
  rw [hH, hM, hS, hMS]

lemma format_time_ass_eq (s : ℚ) (hs : 0 ≤ s) :
    format_time_ass s = ⟨natChars (⌊100 * s⌋₊ / 360000) ++
      ':' :: padDigits 2 (⌊100 * s⌋₊ / 6000 % 60) ++
      ':' :: padDigits 2 (⌊100 * s⌋₊ / 100 % 60) ++
      '.' :: padDigits 2 (⌊100 * s⌋₊ % 100)⟩ := by
  simp only [format_time_ass, qmod]
  set N : ℕ := ⌊100 * s⌋₊ with hNdef
  -- hour field
  have hH : ⌊s / 3600⌋.toNat = N / 360000 := by
    rw [Int.floor_toNat, show s / 3600 = (100 * s) / ((360000 : ℕ) : ℚ) by
      push_cast; ring, Nat.floor_div_nat]
  have hH0 : (0 : ℤ) ≤ ⌊s / 3600⌋ := Int.floor_nonneg.mpr (by positivity)
  have hHcast : ((⌊s / 3600⌋ : ℤ) : ℚ) = ((N / 360000 : ℕ) : ℚ) := by
    rw [← hH]
    exact_mod_cast congrArg (fun z : ℤ => (z : ℚ)) (Int.toNat_of_nonneg hH0).symm
  -- minute field, through the remainder s mod 3600
  have hrfloor : ⌊100 * (s - 3600 * ((⌊s / 3600⌋ : ℤ) : ℚ))⌋₊ = N % 360000 := by
    rw [show (100 : ℚ) * (s - 3600 * ((⌊s / 3600⌋ : ℤ) : ℚ)) =
        100 * s - ((360000 * (N / 360000) : ℕ) : ℚ) by
      rw [hHcast]; push_cast; ring]
    rw [Nat.floor_sub_nat]
    have := Nat.div_mul_le_self N 360000
    omega
  have hM : ⌊(s - 3600 * ((⌊s / 3600⌋ : ℤ) : ℚ)) / 60⌋.toNat = N / 6000 % 60 := by
    rw [Int.floor_toNat, show (s - 3600 * ((⌊s / 3600⌋ : ℤ) : ℚ)) / 60 =
      (100 * (s - 3600 * ((⌊s / 3600⌋ : ℤ) : ℚ))) / ((6000 : ℕ) : ℚ) by
        push_cast; ring, Nat.floor_div_nat, hrfloor]
    omega
  -- second field, through the remainder s mod 60
  have h60 : ⌊s / 60⌋.toNat = N / 6000 := by
    rw [Int.floor_toNat, show s / 60 = (100 * s) / ((6000 : ℕ) : ℚ) by
      push_cast; ring, Nat.floor_div_nat]
  have h600 : (0 : ℤ) ≤ ⌊s / 60⌋ := Int.floor_nonneg.mpr (by positivity)
  have h60cast : ((⌊s / 60⌋ : ℤ) : ℚ) = ((N / 6000 : ℕ) : ℚ) := by
    rw [← h60]
    exact_mod_cast congrArg (fun z : ℤ => (z : ℚ)) (Int.toNat_of_nonneg h600).symm
  have hq60floor : ⌊100 * (s - 60 * ((⌊s / 60⌋ : ℤ) : ℚ))⌋₊ = N % 6000 := by
    rw [show (100 : ℚ) * (s - 60 * ((⌊s / 60⌋ : ℤ) : ℚ)) =
        100 * s - ((6000 * (N / 6000) : ℕ) : ℚ) by
      rw [h60cast]; push_cast; ring]
    rw [Nat.floor_sub_nat]
    have := Nat.div_mul_le_self N 6000
    omega
  have hS : ⌊s - 60 * ((⌊s / 60⌋ : ℤ) : ℚ)⌋.toNat = N / 100 % 60 := by
    rw [Int.floor_toNat]
    have heq : s - 60 * ((⌊s / 60⌋ : ℤ) : ℚ) =
        (100 * (s - 60 * ((⌊s / 60⌋ : ℤ) : ℚ))) / ((100 : ℕ) : ℚ) := by
      push_cast; ring
    conv_lhs => rw [heq]
    rw [Nat.floor_div_nat, hq60floor]
    omega
  -- centisecond field
  have hFl : ⌊s⌋.toNat = N / 100 := by
    rw [Int.floor_toNat, show s = (100 * s) / ((100 : ℕ) : ℚ) by push_cast; ring,
      Nat.floor_div_nat]
  have hFl0 : (0 : ℤ) ≤ ⌊s⌋ := Int.floor_nonneg.mpr hs
  have hFlcast : ((⌊s⌋ : ℤ) : ℚ) = ((N / 100 : ℕ) : ℚ) := by
    rw [← hFl]
    exact_mod_cast congrArg (fun z : ℤ => (z : ℚ)) (Int.toNat_of_nonneg hFl0).symm
  have hCS : ⌊(s - ((⌊s⌋ : ℤ) : ℚ)) * 100⌋.toNat = N % 100 := by
    rw [Int.floor_toNat, show (s - ((⌊s⌋ : ℤ) : ℚ)) * 100 =
        100 * s - ((100 * (N / 100) : ℕ) : ℚ) by
      rw [hFlcast]; push_cast; ring]
    rw [Nat.floor_sub_nat]
    have := Nat.div_mul_le_self N 100
    omega
  rw [hH, hM, hS, hCS]

/-- **C5 amended**: `format_time` is monotonic (string order) on
`[0, 86400)`; `format_time_ass` is monotonic only on `[0, 36000)`, where
its unpadded hour field stays one digit wide. -/
theorem timestamp_monotonicity_amended :
    (∀ s1 s2 : ℚ, 0 ≤ s1 → s1 ≤ s2 → s2 < 86400 →
       format_time s1 ≤ format_time s2) ∧
    (∀ s1 s2 : ℚ, 0 ≤ s1 → s1 ≤ s2 → s2 < 36000 →
       format_time_ass s1 ≤ format_time_ass s2) := by
  constructor
  · intro s1 s2 h0 h12 hub
    have h02 : (0 : ℚ) ≤ s2 := le_trans h0 h12
    rw [format_time_eq s1 h0, format_time_eq s2 h02]
    apply srt_chars_mono
    · exact Nat.floor_mono (by linarith)
    · exact (Nat.floor_lt (by positivity)).mpr (by push_cast; linarith)
  · intro s1 s2 h0 h12 hub
    have h02 : (0 : ℚ) ≤ s2 := le_trans h0 h12
    rw [format_time_ass_eq s1 h0, format_time_ass_eq s2 h02]
    apply ass_chars_mono
    · exact Nat.floor_mono (by linarith)
    · exact (Nat.floor_lt (by positivity)).mpr (by push_cast; linarith)

/-- **C5 counterexample**: the event-format timestamp is *not* monotonic
over `[0, 86400)`: at the 9 h → 10 h boundary the unpadded hour field
grows a digit, and `"9:59:59.00" > "10:00:00.00"` lexicographically. -/
theorem timestamp_monotonicity_counterexample :
    (0 : ℚ) ≤ 35999 ∧ (35999 : ℚ) ≤ 36000 ∧ (36000 : ℚ) < 86400 ∧
    ¬ format_time_ass 35999 ≤ format_time_ass 36000 := by
  refine ⟨by norm_num, by norm_num, by norm_num, ?_⟩
  have e1 : ⌊(100 : ℚ) * 35999⌋₊ = 3599900 := by
    rw [show (100 : ℚ) * 35999 = ((3599900 : ℕ) : ℚ) by norm_num]
    exact Nat.floor_natCast _
  have e2 : ⌊(100 : ℚ) * 36000⌋₊ = 3600000 := by
    rw [show (100 : ℚ) * 36000 = ((3600000 : ℕ) : ℚ) by norm_num]
    exact Nat.floor_natCast _
  have h1 : format_time_ass 35999 = "9:59:59.00" := by
    rw [format_time_ass_eq 35999 (by norm_num), e1]
    rfl
  have h2 : format_time_ass 36000 = "10:00:00.00" := by
    rw [format_time_ass_eq 36000 (by norm_num), e2]
    rfl
  rw [h1, h2]
  intro hle
  have hlt : ("10:00:00.00" : String) < "9:59:59.00" := by
    rw [String.lt_iff_toList_lt]
    decide
  exact absurd hle (not_le.mpr hlt)

end FF
